import Mathlib

/-!
Shallow embedding of the Apollo synthesizer driver core
(`synthDrivers/apollo2`: `indexing.py`, `formants.py`, `text.py`, and the
index-tracking / write-scheduling state machine of `driver.py`), together
with theorems settling the specification claims about it.

Bytes are modelled as `Nat` values (0..255), byte strings as `List Nat`,
Python `str` as `List Char`, and Python `int` as `Int`.  A Python function
that can raise is modelled with `Except Unit`.
-/

namespace Apollo

/-! ### Indexing codec (`indexing.py`) -/

/-- Set of ASCII code points stripped as whitespace by Python `int(str, 16)`
on an ASCII string: tab, line feed, vertical tab, form feed, carriage return,
space (CPython's C-level `Py_ISSPACE`).  This set is deliberately smaller
than `str.isspace`'s (see `pyIsSpaceChar` below): CPython transforms Unicode
whitespace to ASCII space only for non-ASCII strings, and the ASCII parser
strips only this set, so `int("\x1c5", 16)` raises even though
`"\x1c".isspace()` holds, while `int("\xa05", 16)` is 5. -/
def pyIsSpaceB (b : Nat) : Bool :=
  (9 ≤ b && b ≤ 13) || b == 32

/-- ASCII hexadecimal digit bytes: `0`-`9`, `A`-`F`, `a`-`f`. -/
def isAsciiHexDigitB (b : Nat) : Bool :=
  (48 ≤ b && b ≤ 57) || (65 ≤ b && b ≤ 70) || (97 ≤ b && b ≤ 102)

/-- Numeric value of an ASCII hex digit byte. -/
def hexDigitVal (b : Nat) : Nat :=
  if b ≤ 57 then b - 48 else if b ≤ 70 then b - 55 else b - 87

/-- Python `bytes.upper` on a single byte: maps `a`-`z` to `A`-`Z`, all else unchanged. -/
def byteUpper (b : Nat) : Nat :=
  if 97 ≤ b && b ≤ 122 then b - 32 else b

/-- Model of `int(two_bytes.decode("ascii"), 16)` for an input of exactly two
bytes: the decode fails on non-ASCII bytes; the parse strips surrounding
whitespace, accepts an optional leading sign, and then needs at least one hex
digit, so the two-character forms that parse are digit-digit, space-digit,
digit-space, `+`-digit and `-`-digit.  `none` models the raised exception. -/
def pyIntBase16Two (b0 b1 : Nat) : Option Int :=
  if 128 ≤ b0 || 128 ≤ b1 then none
  else if isAsciiHexDigitB b0 && isAsciiHexDigitB b1 then
    some (16 * hexDigitVal b0 + hexDigitVal b1)
  else if pyIsSpaceB b0 && isAsciiHexDigitB b1 then some (hexDigitVal b1)
  else if isAsciiHexDigitB b0 && pyIsSpaceB b1 then some (hexDigitVal b0)
  else if b0 = 43 && isAsciiHexDigitB b1 then some (hexDigitVal b1)
  else if b0 = 45 && isAsciiHexDigitB b1 then some (-(hexDigitVal b1 : Int))
  else none

/-- Model of `decode_swapped_hex_byte`: raises unless the input has exactly two bytes,
then parses the byte-swapped, uppercased pair as hex. -/
def decode_swapped_hex_byte (bs : List Nat) : Except Unit Int :=
  if bs.length ≠ 2 then .error ()
  else
    match pyIntBase16Two (byteUpper (bs.getD 1 0)) (byteUpper (bs.getD 0 0)) with
    | some v => .ok v
    | none => .error ()

/-- Model of `decode_index_counter`: raises unless the input has exactly two bytes;
parses the normal interpretation (falling back to 0 on failure) and the
swapped interpretation (falling back to the normal one on failure), keeps the
candidates lying in `[0, pending_count]`, and returns their maximum, or the
minimum of the two raw values when no candidate is in range. -/
def decode_index_counter (bs : List Nat) (pending_count : Nat) : Except Unit Int :=
  if bs.length ≠ 2 then .error ()
  else
    let normal : Int := (pyIntBase16Two (bs.getD 0 0) (bs.getD 1 0)).getD 0
    let swapped : Int :=
      (pyIntBase16Two (byteUpper (bs.getD 1 0)) (byteUpper (bs.getD 0 0))).getD normal
    let candidates := [normal, swapped].filter
      (fun v => decide (0 ≤ v ∧ v ≤ (pending_count : Int)))
    match candidates.max? with
    | some m => .ok m
    | none => .ok (min normal swapped)

/-- Range-based disambiguation described by the specification: take the larger
candidate when both fit in `[0, pending_count]`, the fitting one when exactly
one fits, and the smaller raw value when neither fits. -/
def rangeSelect (normal swapped : Int) (pending_count : Nat) : Int :=
  if (0 ≤ normal ∧ normal ≤ pending_count) ∧ (0 ≤ swapped ∧ swapped ≤ pending_count) then
    max normal swapped
  else if 0 ≤ normal ∧ normal ≤ pending_count then normal
  else if 0 ≤ swapped ∧ swapped ≤ pending_count then swapped
  else min normal swapped

lemma hexDigit_lt_128 {b : Nat} (h : isAsciiHexDigitB b = true) : b < 128 := by
  simp only [isAsciiHexDigitB, Bool.or_eq_true, Bool.and_eq_true, decide_eq_true_eq,
    beq_iff_eq] at h
  omega

lemma pyIntBase16Two_hex {b0 b1 : Nat} (h0 : isAsciiHexDigitB b0 = true)
    (h1 : isAsciiHexDigitB b1 = true) :
    pyIntBase16Two b0 b1 = some (16 * hexDigitVal b0 + hexDigitVal b1) := by
  have hb0 := hexDigit_lt_128 h0
  have hb1 := hexDigit_lt_128 h1
  simp [pyIntBase16Two, h0, h1, Nat.not_le.mpr hb0, Nat.not_le.mpr hb1]

lemma byteUpper_hexDigit {b : Nat} (h : isAsciiHexDigitB b = true) :
    isAsciiHexDigitB (byteUpper b) = true ∧ hexDigitVal (byteUpper b) = hexDigitVal b := by
  have hlo : 48 ≤ b := by
    simp only [isAsciiHexDigitB, Bool.or_eq_true, Bool.and_eq_true, decide_eq_true_eq] at h
    omega
  have hhi : b ≤ 102 := by
    simp only [isAsciiHexDigitB, Bool.or_eq_true, Bool.and_eq_true, decide_eq_true_eq] at h
    omega
  interval_cases b <;> revert h <;> decide

lemma decode_index_counter_hex {b0 b1 : Nat} (pc : Nat)
    (h0 : isAsciiHexDigitB b0 = true) (h1 : isAsciiHexDigitB b1 = true) :
    decode_index_counter [b0, b1] pc =
      .ok (rangeSelect (16 * hexDigitVal b0 + hexDigitVal b1)
        (16 * hexDigitVal b1 + hexDigitVal b0) pc) := by
  obtain ⟨hu0, hv0⟩ := byteUpper_hexDigit h0
  obtain ⟨hu1, hv1⟩ := byteUpper_hexDigit h1
  have e1 : pyIntBase16Two b0 b1 = some (16 * hexDigitVal b0 + hexDigitVal b1) :=
    pyIntBase16Two_hex h0 h1
  have e2 : pyIntBase16Two (byteUpper b1) (byteUpper b0) =
      some (16 * hexDigitVal b1 + hexDigitVal b0) := by
    rw [pyIntBase16Two_hex hu1 hu0, hv0, hv1]
  have h0N : (0 : Int) ≤ 16 * hexDigitVal b0 + hexDigitVal b1 := by positivity
  have h0S : (0 : Int) ≤ 16 * hexDigitVal b1 + hexDigitVal b0 := by positivity
  simp only [decode_index_counter, List.length_cons, List.length_nil, List.getD, List.get?,
    Option.getD_some, e1, e2]
  by_cases hN : (16 * hexDigitVal b0 + hexDigitVal b1 : Int) ≤ pc <;>
    by_cases hS : (16 * hexDigitVal b1 + hexDigitVal b0 : Int) ≤ pc <;>
      simp [rangeSelect, List.filter, List.max?, hN, hS, h0N, h0S]

lemma decode_index_counter_total {bs : List Nat} (pc : Nat) (h : bs.length = 2) :
    ∃ r, decode_index_counter bs pc = .ok r := by
  unfold decode_index_counter
  rw [if_neg (fun hne => hne h)]
  dsimp only
  split
  · exact ⟨_, rfl⟩
  · exact ⟨_, rfl⟩

/-- C1 — for two ASCII hex digits and any pending count, `decode_index_counter`
computes the normal and nibble-swapped interpretations and selects between
them by the `[0, pending_count]` range rule (the one in range; the larger when
both are; the smaller raw value when neither is); in particular
`decode_index_counter` of bytes "12" with 40 pending is 0x21, of "40" with 10
pending is 4, and of "05" with 10 pending is 5. -/
theorem C1_decode_index_counter_range_rule :
    (∀ b0 b1 pc : Nat, isAsciiHexDigitB b0 = true → isAsciiHexDigitB b1 = true →
      decode_index_counter [b0, b1] pc =
        .ok (rangeSelect (16 * hexDigitVal b0 + hexDigitVal b1)
          (16 * hexDigitVal b1 + hexDigitVal b0) pc)) ∧
    decode_index_counter [49, 50] 40 = .ok 0x21 ∧
    decode_index_counter [52, 48] 10 = .ok 4 ∧
    decode_index_counter [48, 53] 10 = .ok 5 :=
  ⟨fun _ _ pc h0 h1 => decode_index_counter_hex pc h0 h1, rfl, rfl, rfl⟩

/-- Witness for C1: instantiating the range rule on bytes "F0" with 100
pending marks yields the swapped interpretation 15. -/
theorem C1_decode_index_counter_range_rule_witness :
    decode_index_counter [70, 48] 100 = .ok 15 := by
  have h := C1_decode_index_counter_range_rule.1 70 48 100 (by decide) (by decide)
  norm_num [hexDigitVal, rangeSelect] at h
  exact h

lemma byteUpper_not_hex {b : Nat} (h : isAsciiHexDigitB b = false) :
    isAsciiHexDigitB (byteUpper b) = false := by
  unfold isAsciiHexDigitB at h ⊢
  unfold byteUpper
  rw [← Bool.not_eq_true] at h ⊢
  simp only [Bool.or_eq_true, Bool.and_eq_true, decide_eq_true_eq] at h ⊢
  split_ifs with hb
  · simp only [Bool.and_eq_true, decide_eq_true_eq] at hb
    omega
  · exact h

lemma pyIntBase16Two_none_of_not_hex {b0 b1 : Nat}
    (h0 : isAsciiHexDigitB b0 = false) (h1 : isAsciiHexDigitB b1 = false) :
    pyIntBase16Two b0 b1 = none := by
  unfold pyIntBase16Two
  split_ifs <;> simp_all

/-- C8 (amended) — `decode_index_counter` never raises on a two-byte input:
it always returns a value; and when neither byte is an ASCII hex digit — so
that no two-character form Python's hex parser accepts can be assembled from
them, in either nibble order — both candidate interpretations degrade to 0
and the result is 0. -/
theorem C8_decode_index_counter_never_raises :
    ∀ b0 b1 pc : Nat,
      (∃ r, decode_index_counter [b0, b1] pc = .ok r) ∧
      (isAsciiHexDigitB b0 = false → isAsciiHexDigitB b1 = false →
        decode_index_counter [b0, b1] pc = .ok 0) := by
  intro b0 b1 pc
  refine ⟨decode_index_counter_total pc rfl, fun h0 h1 => ?_⟩
  have hn := pyIntBase16Two_none_of_not_hex h0 h1
  have hs := pyIntBase16Two_none_of_not_hex (byteUpper_not_hex h1) (byteUpper_not_hex h0)
  simp [decode_index_counter, hn, hs, List.filter, List.max?, Int.natCast_nonneg]

/-- Witness for C8: two non-ASCII bytes are not hex digits, so the decoder
returns 0 rather than raising. -/
theorem C8_decode_index_counter_never_raises_witness :
    decode_index_counter [200, 201] 3 = .ok 0 :=
  (C8_decode_index_counter_never_raises 200 201 3).2 (by rfl) (by rfl)

/-- Counterexample for C8 as stated: the bytes of "+5" are not two hex
digits, yet Python hex parsing accepts a sign, so with 10 pending the decoder
returns 5, not 0. -/
theorem C8_counterexample_sign_accepted :
    isAsciiHexDigitB 43 = false ∧
      decode_index_counter [43, 53] 10 = .ok 5 ∧ (5 : Int) ≠ 0 :=
  ⟨rfl, rfl, by decide⟩

/-! ### Formant delta codec (`formants.py`) -/

def FORMANT_DELTA_HARD_MIN : Int := -255
def FORMANT_DELTA_HARD_MAX : Int := 255

/-- One uppercase hex digit character. -/
def hexDigitChar (n : Nat) : Char :=
  if n < 10 then Char.ofNat (48 + n) else Char.ofNat (55 + n)

/-- Python `f"\x7bn:02X\x7d"` for `n ≤ 255`: exactly two uppercase hex digits. -/
def hex2 (n : Nat) : String :=
  String.mk [hexDigitChar (n / 16 % 16), hexDigitChar (n % 16)]

/-- The command string `f"@u\x7bindex\x7d\x7bhh:02X\x7d\x7bsign\x7d "`. -/
def formantCommandStr (index : Nat) (hh : Nat) (sign : String) : String :=
  "@u" ++ toString index ++ hex2 hh ++ sign ++ " "

/-- Model of `get_formant_commands_from_deltas`: skip zero deltas; clamp each delta to
the hard range, take its sign and its magnitude capped at 0xFF. -/
def get_formant_commands_from_deltas (deltas : List Int) : List String :=
  deltas.enum.filterMap fun p =>
    if p.2 = 0 then none
    else
      let delta_int := max FORMANT_DELTA_HARD_MIN (min FORMANT_DELTA_HARD_MAX p.2)
      let sign := if delta_int > 0 then "+" else "-"
      let hh := min 0xFF delta_int.natAbs
      some (formantCommandStr p.1 hh sign)

/-- Magnitudes emitted by the while loop of `get_formant_adjust_commands`:
chunks of at most 0xFF that exhaust `remaining`. -/
def adjustChunks (remaining : Nat) : List Nat :=
  if h : remaining = 0 then []
  else
    have : remaining - min 0xFF remaining < remaining := by omega
    min 0xFF remaining :: adjustChunks (remaining - min 0xFF remaining)
termination_by remaining

/-- Model of `get_formant_adjust_commands`: empty for a zero diff, else one command
per chunk of the absolute diff, all carrying the diff's sign. -/
def get_formant_adjust_commands (index : Nat) (diff : Int) : List String :=
  if diff = 0 then []
  else
    let sign := if diff > 0 then "+" else "-"
    (adjustChunks diff.natAbs).map fun chunk => formantCommandStr index chunk sign

/-- Model of `get_formant_diff_commands`: per index, diff desired against applied
(missing applied entries read as 0) and emit adjust commands for nonzero
diffs. -/
def get_formant_diff_commands (desired applied : List Int) : List String :=
  (desired.enum.map fun p =>
    let current := applied.getD p.1 0
    let diff := p.2 - current
    if diff ≠ 0 then get_formant_adjust_commands p.1 diff else []).flatten

lemma adjustChunks_sum (n : Nat) : (adjustChunks n).sum = n := by
  induction n using Nat.strong_induction_on with
  | _ n ih =>
    unfold adjustChunks
    split_ifs with h
    · simp [h]
    · rw [List.sum_cons, ih (n - min 0xFF n) (by omega)]
      omega

lemma adjustChunks_mem {n m : Nat} (hm : m ∈ adjustChunks n) : 1 ≤ m ∧ m ≤ 0xFF := by
  induction n using Nat.strong_induction_on with
  | _ n ih =>
    rw [adjustChunks] at hm
    split_ifs at hm with h
    · simp at hm
    · rcases List.mem_cons.mp hm with hm | hm
      · omega
      · exact ih (n - min 0xFF n) (by omega) hm

lemma adjustChunks_ne_nil {n : Nat} (h : n ≠ 0) : adjustChunks n ≠ [] := by
  rw [adjustChunks]
  simp [h]

lemma filterMap_eq_map_filter {α β : Type} (f : α → Option β) (q : α → Bool) (g : α → β)
    (h : ∀ x, f x = if q x then some (g x) else none) (l : List α) :
    l.filterMap f = (l.filter q).map g := by
  induction l with
  | nil => rfl
  | cons a t ih =>
    rw [List.filterMap_cons, List.filter_cons, h a]
    by_cases hq : q a <;> simp [hq, ih]

lemma get_formant_adjust_commands_ne_nil {i : Nat} {diff : Int} (h : diff ≠ 0) :
    get_formant_adjust_commands i diff ≠ [] := by
  unfold get_formant_adjust_commands
  rw [if_neg h]
  dsimp only
  simp only [ne_eq, List.map_eq_nil_iff]
  exact adjustChunks_ne_nil (by omega)

/-- C6 — `get_formant_adjust_commands` returns nothing for a zero diff and
splits any nonzero diff into nonempty same-sign commands whose magnitudes are
the chunks of the absolute diff, each between 1 and 0xFF, summing (with the
diff's sign) to the diff; `get_formant_commands_from_deltas` emits exactly one
command per nonzero delta carrying the delta's sign and its magnitude clamped
to 0xFF, and maps `[0, 0, 0]` to `[]` and `[1]` to `["@u001+ "]`. -/
theorem C6_formant_command_encoding :
    (∀ i : Nat, get_formant_adjust_commands i 0 = []) ∧
    (∀ (i : Nat) (diff : Int), diff ≠ 0 →
      get_formant_adjust_commands i diff =
        (adjustChunks diff.natAbs).map
          (fun m => formantCommandStr i m (if 0 < diff then "+" else "-")) ∧
      adjustChunks diff.natAbs ≠ [] ∧
      (∀ m ∈ adjustChunks diff.natAbs, 1 ≤ m ∧ m ≤ 0xFF) ∧
      (if 0 < diff then ((adjustChunks diff.natAbs).sum : Int)
        else -((adjustChunks diff.natAbs).sum : Int)) = diff) ∧
    (∀ deltas : List Int, get_formant_commands_from_deltas deltas =
      (deltas.enum.filter (fun p => p.2 ≠ 0)).map
        (fun p => formantCommandStr p.1 (min 0xFF p.2.natAbs)
          (if 0 < p.2 then "+" else "-"))) ∧
    get_formant_commands_from_deltas [0, 0, 0] = [] ∧
    get_formant_commands_from_deltas [1] = ["@u001+ "] := by
  refine ⟨fun _ => rfl, fun i diff h => ?_, fun deltas => ?_, rfl, rfl⟩
  · refine ⟨?_, adjustChunks_ne_nil (by omega), fun m hm => adjustChunks_mem hm, ?_⟩
    · unfold get_formant_adjust_commands
      rw [if_neg h]
    · have hs := adjustChunks_sum diff.natAbs
      split_ifs with hd <;> omega
  · refine filterMap_eq_map_filter _ _ _ (fun p => ?_) _
    by_cases hz : p.2 = 0
    · simp [hz]
    · rw [if_neg hz, if_pos (by simpa using hz)]
      have h1 : min 0xFF (max FORMANT_DELTA_HARD_MIN (min FORMANT_DELTA_HARD_MAX p.2)).natAbs =
          min 0xFF p.2.natAbs := by
        simp only [FORMANT_DELTA_HARD_MIN, FORMANT_DELTA_HARD_MAX]
        omega
      have h2 : (max FORMANT_DELTA_HARD_MIN (min FORMANT_DELTA_HARD_MAX p.2) > 0) = (0 < p.2) := by
        simp only [FORMANT_DELTA_HARD_MIN, FORMANT_DELTA_HARD_MAX, gt_iff_lt, eq_iff_iff]
        omega
      dsimp only
      rw [h1]
      simp only [h2]

/-- Witness for C6: the nonzero-diff clause applied to index 0 and diff 300
yields the two-chunk split 0xFF + 0x2D. -/
theorem C6_formant_command_encoding_witness :
    get_formant_adjust_commands 0 300 = ["@u0FF+ ", "@u02D+ "] := by
  have h := (C6_formant_command_encoding.2.1 0 300 (by decide)).1
  have e : adjustChunks (Int.natAbs 300) = [255, 45] := by
    norm_num
    rw [adjustChunks]; norm_num
    rw [adjustChunks]; norm_num
    rw [adjustChunks]; norm_num
  rw [h, e]
  rfl

/-- C9 — `get_formant_diff_commands` returns the empty list exactly when
every desired entry equals the applied entry at the same position, missing
applied entries reading as zero; in particular it is empty on two equal
lists. -/
theorem C9_formant_diff_empty_iff_equal :
    (∀ desired applied : List Int,
      get_formant_diff_commands desired applied = [] ↔
        ∀ (i : Nat) (_ : i < desired.length), desired[i] = applied.getD i 0) ∧
    ∀ x : List Int, get_formant_diff_commands x x = [] := by
  have key : ∀ desired applied : List Int,
      get_formant_diff_commands desired applied = [] ↔
        ∀ (i : Nat) (_ : i < desired.length), desired[i] = applied.getD i 0 := by
    intro desired applied
    unfold get_formant_diff_commands
    rw [List.flatten_eq_nil_iff, List.forall_mem_map, List.forall_mem_enum]
    refine forall_congr' fun i => forall_congr' fun hi => ?_
    dsimp only
    by_cases hd : desired[i] - applied.getD i 0 ≠ 0
    · rw [if_pos hd]
      exact ⟨fun hcon => absurd hcon (get_formant_adjust_commands_ne_nil hd),
        fun heq => absurd (by omega : desired[i] - applied.getD i 0 = 0) hd⟩
    · rw [if_neg hd]
      push_neg at hd
      exact ⟨fun _ => by omega, fun _ => rfl⟩
  refine ⟨key, fun x => (key x x).mpr fun i hi => ?_⟩
  rw [List.getD_eq_getElem x 0 hi]

/-- Witness for C9: instantiating the equal-lists clause at a concrete list. -/
theorem C9_formant_diff_empty_iff_equal_witness :
    get_formant_diff_commands [3, -4] [3, -4] = [] :=
  C9_formant_diff_empty_iff_equal.2 [3, -4]

/-! ### Text sanitizer (`text.py`) -/

/-- Python `str.isspace` on a single character (Unicode whitespace). -/
def pyIsSpaceChar (c : Char) : Bool :=
  let n := c.toNat
  (9 ≤ n && n ≤ 13) || (28 ≤ n && n ≤ 32) || n == 0x85 || n == 0xA0 || n == 0x1680 ||
    (0x2000 ≤ n && n ≤ 0x200A) || n == 0x2028 || n == 0x2029 || n == 0x202F ||
    n == 0x205F || n == 0x3000

/-- Model of `sanitize_text` over the character list of the input string: an empty
input yields the empty string; otherwise the protocol prefix character `@` is
replaced by a space, then every whitespace, control (below 0x20) or DEL
character is replaced by an ordinary space. -/
def sanitize_text (text : List Char) : List Char :=
  if text = [] then []
  else
    (text.map fun ch => if ch = '@' then ' ' else ch).map fun ch =>
      if pyIsSpaceChar ch || ch.toNat < 0x20 || ch.toNat == 0x7F then ' ' else ch

/-- The per-character action of `sanitize_text`. -/
def sanitizeChar (ch : Char) : Char :=
  if pyIsSpaceChar (if ch = '@' then ' ' else ch) ||
      (if ch = '@' then ' ' else ch).toNat < 0x20 ||
      (if ch = '@' then ' ' else ch).toNat == 0x7F then ' '
  else if ch = '@' then ' ' else ch

lemma sanitize_text_eq_map (text : List Char) : sanitize_text text = text.map sanitizeChar := by
  unfold sanitize_text
  split_ifs with h
  · rw [h, List.map_nil]
  · rw [List.map_map]
    refine List.map_congr_left fun ch _ => ?_
    unfold sanitizeChar
    rfl

lemma sanitizeChar_idem (ch : Char) : sanitizeChar (sanitizeChar ch) = sanitizeChar ch := by
  unfold sanitizeChar
  split_ifs <;> rfl

/-- C10 — `sanitize_text` maps each character to exactly one character, so it
preserves the length of every string, and it is idempotent. -/
theorem C10_sanitize_text_length_preserving_and_idempotent :
    ∀ s : List Char,
      (sanitize_text s).length = s.length ∧
      sanitize_text (sanitize_text s) = sanitize_text s := by
  intro s
  rw [sanitize_text_eq_map, sanitize_text_eq_map]
  refine ⟨List.length_map s sanitizeChar, ?_⟩
  rw [List.map_map]
  exact List.map_congr_left fun ch _ => sanitizeChar_idem ch

/-! ### Index-tracking state machine (`driver.py`) -/

/-- Constant `_INTERNAL_DONE_INDEX`: the reserved sentinel appended by `speak` as the
trailing index mark of every utterance. -/
def INTERNAL_DONE_INDEX : Int := -1

/-- The index-tracking state guarded by `_indexLock`: the pending-index queue
and the speaking flag. -/
structure IndexState where
  pendingIndexes : List Int
  isSpeaking : Bool
deriving DecidableEq

/-- The while loop of `_onUnitsRemaining`: pop from the left while the decoded
units-remaining value is below the queue length; returns the popped indexes in
pop order together with the remaining queue. -/
def popWhile (u : Int) : List Int → List Int × List Int
  | [] => ([], [])
  | x :: xs =>
    if u < ((x :: xs).length : Int) then
      let p := popWhile u xs
      (x :: p.1, p.2)
    else ([], x :: xs)

/-- Model of `_onUnitsRemaining`: pop pending indexes while the remaining count is
below the queue length; when the queue has drained with the speaking flag
set, clear the flag and notify "done speaking"; notify "index reached" only
for the popped indexes that are nonnegative.  Returns the new state, the
indexes reported to the caller, and whether "done speaking" fired. -/
def onUnitsRemaining (u : Int) (s : IndexState) : IndexState × List Int × Bool :=
  let p := popWhile u s.pendingIndexes
  let drained := s.isSpeaking && p.2.isEmpty
  (⟨p.2, if drained then false else s.isSpeaking⟩,
    p.1.filter (fun i => decide (0 ≤ i)), drained)

/-- A sequence of decoded units-remaining values folded through
`_onUnitsRemaining`, counting the "done speaking" notifications. -/
def runUnits : List Int → IndexState → IndexState × Nat
  | [], s => (s, 0)
  | u :: us, s =>
    let r := onUnitsRemaining u s
    let rest := runUnits us r.1
    (rest.1, (if r.2.2 then 1 else 0) + rest.2)

lemma popWhile_eq (u : Int) (l : List Int) :
    popWhile u l = (l.take (l.length - u.toNat), l.drop (l.length - u.toNat)) := by
  induction l with
  | nil => simp [popWhile]
  | cons x xs ih =>
    unfold popWhile
    split_ifs with h
    · rw [ih]
      have hk : (x :: xs).length - u.toNat = (xs.length - u.toNat) + 1 := by
        simp only [List.length_cons] at h ⊢
        omega
      rw [hk]
      simp
    · have hk : (x :: xs).length - u.toNat = 0 := by
        simp only [List.length_cons] at h ⊢
        omega
      rw [hk]
      simp

lemma onUnitsRemaining_isSpeaking (u : Int) (s : IndexState) :
    (onUnitsRemaining u s).1.isSpeaking =
      (s.isSpeaking && !(onUnitsRemaining u s).2.2) := by
  unfold onUnitsRemaining
  dsimp only
  cases hs : s.isSpeaking <;> cases hp : (popWhile u s.pendingIndexes).2.isEmpty <;> simp [hs, hp]

lemma onUnitsRemaining_done_iff (u : Int) (s : IndexState) :
    (onUnitsRemaining u s).2.2 = true ↔
      s.isSpeaking = true ∧ (onUnitsRemaining u s).1.isSpeaking = false := by
  rw [onUnitsRemaining_isSpeaking]
  unfold onUnitsRemaining
  dsimp only
  cases hs : s.isSpeaking <;> cases hp : (popWhile u s.pendingIndexes).2.isEmpty <;> simp [hs, hp]

lemma runUnits_isSpeaking_mono {us : List Int} {s : IndexState}
    (h : s.isSpeaking = false) : (runUnits us s).1.isSpeaking = false := by
  induction us generalizing s with
  | nil => exact h
  | cons u us ih =>
    unfold runUnits
    exact ih (by rw [onUnitsRemaining_isSpeaking, h, Bool.false_and])

lemma runUnits_done_count (us : List Int) (s : IndexState) :
    (runUnits us s).2 =
      if s.isSpeaking = true ∧ (runUnits us s).1.isSpeaking = false then 1 else 0 := by
  induction us generalizing s with
  | nil => simp [runUnits]
  | cons u us ih =>
    unfold runUnits
    dsimp only
    rw [ih]
    by_cases hdone : (onUnitsRemaining u s).2.2 = true
    · obtain ⟨hs, hoff⟩ := (onUnitsRemaining_done_iff u s).mp hdone
      rw [hdone, if_pos rfl, hs]
      have hrest : (runUnits us (onUnitsRemaining u s).1).1.isSpeaking = false :=
        runUnits_isSpeaking_mono hoff
      rw [if_neg (fun hc => by rw [hoff] at hc; exact absurd hc.1 (by simp)),
        if_pos ⟨rfl, hrest⟩]
    · have hd : (onUnitsRemaining u s).2.2 = false := by
        cases hc : (onUnitsRemaining u s).2.2
        · rfl
        · exact absurd hc hdone
      have hkeep : (onUnitsRemaining u s).1.isSpeaking = s.isSpeaking := by
        rw [onUnitsRemaining_isSpeaking, hd]
        cases s.isSpeaking <;> rfl
      rw [hd, if_neg (by simp), hkeep]
      omega

/-- C2 — on each decoded units-remaining value the oldest pending indexes are
popped and reported in FIFO order while the remaining count is below the
queue length; "done speaking" fires exactly when the queue has drained with
the speaking flag set, and the flag is then cleared, so along any sequence of
updates it fires exactly once when the flag goes from set to cleared and
never otherwise; and the reserved sentinel (the negative internal done-index
-1) is never reported through an "index reached" notification. -/
theorem C2_index_machine_fifo_done_once_sentinel_hidden :
    (∀ (u : Int) (s : IndexState),
      (onUnitsRemaining u s).1.pendingIndexes =
        s.pendingIndexes.drop (s.pendingIndexes.length - u.toNat) ∧
      (onUnitsRemaining u s).2.1 =
        (s.pendingIndexes.take (s.pendingIndexes.length - u.toNat)).filter
          (fun i => decide (0 ≤ i)) ∧
      (onUnitsRemaining u s).2.2 =
        (s.isSpeaking && ((onUnitsRemaining u s).1.pendingIndexes).isEmpty) ∧
      ((onUnitsRemaining u s).2.2 = true → (onUnitsRemaining u s).1.isSpeaking = false) ∧
      INTERNAL_DONE_INDEX ∉ (onUnitsRemaining u s).2.1) ∧
    (∀ (us : List Int) (s : IndexState),
      (runUnits us s).2 =
        if s.isSpeaking = true ∧ (runUnits us s).1.isSpeaking = false then 1 else 0) := by
  refine ⟨fun u s => ?_, runUnits_done_count⟩
  have hpop := popWhile_eq u s.pendingIndexes
  refine ⟨?_, ?_, ?_, ?_, ?_⟩
  · unfold onUnitsRemaining
    rw [hpop]
  · unfold onUnitsRemaining
    rw [hpop]
  · rfl
  · intro hd
    rw [onUnitsRemaining_isSpeaking, hd]
    simp
  · unfold onUnitsRemaining
    dsimp only
    intro hmem
    have := (List.mem_filter.mp hmem).2
    simp only [INTERNAL_DONE_INDEX, decide_eq_true_eq] at this
    omega

/-- Witness for C2: with one real index, the trailing sentinel and the
speaking flag set, a units-remaining value of 0 pops both marks, reports only
the real index, clears the flag and fires "done speaking" once. -/
theorem C2_index_machine_witness :
    (onUnitsRemaining 0 ⟨[7, -1], true⟩).1.isSpeaking = false ∧
      (onUnitsRemaining 0 ⟨[7, -1], true⟩).2.1 = [7] ∧
      runUnits [0] ⟨[7, -1], true⟩ = (⟨[], false⟩, 1) := by
  refine ⟨(C2_index_machine_fifo_done_once_sentinel_hidden.1 0 ⟨[7, -1], true⟩).2.2.2.1
    (by decide), by decide, ?_⟩
  decide

/-! ### Write scheduler (`driver.py`)

Time (`time.monotonic`) is modelled with exact rationals; serial I/O is
modelled by a `serialPresent` flag plus outcome parameters for reconnection
and write success.  The settings-sync and formant-sync branches of the write
loop transmit only freshly generated non-cancelable settings bytes, never the
item payload, so they appear as an opaque `syncHandled` outcome. -/

/-- Constant `_MUTE` (`protocol.MUTE`, the CAN control byte). -/
def MUTE : List Nat := [0x18]

/-- Constant `_OFFLINE_WRITE_MAX_AGE_SECONDS`. -/
def OFFLINE_WRITE_MAX_AGE_SECONDS : ℚ := 10

/-- Record `_WriteItem`. -/
structure WItem where
  data : List Nat
  indexes : List Int
  generation : Nat
  createdAt : ℚ
  includesSettings : Bool
  cancelable : Bool
  isSettingsSync : Bool
  isFormantSync : Bool
  isMute : Bool
deriving DecidableEq

/-- The driver state touched by the write scheduler and cancellation.  The
write queue holds `Option` items because `terminate` enqueues a `None`
sentinel that stops the write thread. -/
structure DriverState where
  pendingIndexes : List Int
  isSpeaking : Bool
  cancelGeneration : Nat
  writeQueue : List (Option WItem)
  isWritingSpeech : Bool
  serialPresent : Bool
  stopped : Bool
  indexEnableCommand : List Nat
deriving DecidableEq

/-- Model of `_queueWrite`: append an item stamped with the current generation and
time, unless the driver is stopping. -/
def queueWriteItem (s : DriverState) (data : List Nat) (indexes : List Int)
    (includesSettings cancelable isSettingsSync isFormantSync isMute : Bool)
    (now : ℚ) : DriverState :=
  if !s.stopped then
    { s with writeQueue := s.writeQueue ++
        [some ⟨data, indexes, s.cancelGeneration, now, includesSettings, cancelable,
          isSettingsSync, isFormantSync, isMute⟩] }
  else s

/-- Model of `_clearIndexes`. -/
def clearIndexes (s : DriverState) : DriverState :=
  { s with pendingIndexes := [], isSpeaking := false }

/-- The predicate of the drain loop in `cancel`: an entry survives the sweep
when it is the `None` sentinel or a non-cancelable, non-mute item. -/
def keepOnCancel : Option WItem → Bool
  | none => true
  | some item => !item.cancelable && !item.isMute

/-- Model of `cancel`: record whether speech was in flight, bump the generation
counter, clear the index state, drain the queue keeping only `keepOnCancel`
entries, enqueue a fresh non-cancelable mute item when a serial connection
exists and anything was speaking, queued or mid-write, then re-queue the
preserved entries; fire "done speaking" exactly when speech was in flight.
Returns the new state and the number of "done speaking" notifications. -/
def cancel (s : DriverState) (now : ℚ) : DriverState × Nat :=
  let wasSpeaking := s.isSpeaking || !s.pendingIndexes.isEmpty
  let hadPendingQueue := !s.writeQueue.isEmpty
  let inFlightSpeech := s.isWritingSpeech
  let s1 := clearIndexes { s with cancelGeneration := s.cancelGeneration + 1 }
  let preserved := s1.writeQueue.filter keepOnCancel
  let s2 := { s1 with writeQueue := [] }
  let s3 :=
    if s2.serialPresent && (wasSpeaking || hadPendingQueue || inFlightSpeech) then
      queueWriteItem s2 (MUTE ++ s2.indexEnableCommand) [] false false false false true now
    else s2
  ({ s3 with writeQueue := s3.writeQueue ++ preserved },
    if wasSpeaking then 1 else 0)

/-- Outcome of one pass of the write-loop body. -/
inductive WriteOutcome where
  | idle
  | stopThread
  | skippedStale (item : WItem)
  | muteProcessed (item : WItem) (sent : Bool)
  | syncHandled (item : WItem)
  | droppedOffline (item : WItem) (doneNotified : Bool)
  | requeued (item : WItem)
  | transmitted (item : WItem)
  | sendFailed (item : WItem)
deriving DecidableEq

/-- The tail of the Normal-item branch: the chunked `writeBytes` call (whose
per-chunk generation re-check cannot fire in a single sequential step, the
loop-head check having just passed) followed by the `finally` block that
extends the pending-index queue and sets the speaking flag when the item
still belongs to the current generation.  A failed serial write runs
`_disconnect`, which drops the serial handle and clears the index state
before the `finally` block re-extends it. -/
def sendPhase (s : DriverState) (item : WItem) (sendOk : Bool) :
    DriverState × WriteOutcome :=
  let base := if sendOk then s else clearIndexes { s with serialPresent := false }
  let s1 :=
    if !item.indexes.isEmpty && (!item.cancelable || item.generation == s.cancelGeneration)
    then { base with pendingIndexes := base.pendingIndexes ++ item.indexes, isSpeaking := true }
    else base
  if sendOk then (s1, .transmitted item) else (s1, .sendFailed item)

/-- One pass of the `_writeLoop` body over the queue head.  `reconnectOk`
models the result of `_ensureConnected` when the loop attempts a reconnect;
`sendOk` models serial write success. -/
def writeStep (s : DriverState) (now : ℚ) (reconnectOk sendOk : Bool) :
    DriverState × WriteOutcome :=
  match s.writeQueue with
  | [] => (s, .idle)
  | none :: rest => ({ s with writeQueue := rest }, .stopThread)
  | some item :: rest =>
    let s0 := { s with writeQueue := rest }
    if item.cancelable && item.generation != s0.cancelGeneration then
      (s0, .skippedStale item)
    else if item.isMute then
      (s0, .muteProcessed item s0.serialPresent)
    else if item.isSettingsSync || item.isFormantSync then
      (s0, .syncHandled item)
    else if !s0.serialPresent then
      if item.cancelable && decide (now - item.createdAt > OFFLINE_WRITE_MAX_AGE_SECONDS) then
        (s0, .droppedOffline item
          (!item.indexes.isEmpty && item.indexes.getLast? == some INTERNAL_DONE_INDEX))
      else if !reconnectOk then
        ({ s0 with writeQueue := rest ++ [some item] }, .requeued item)
      else
        sendPhase { s0 with serialPresent := true } item sendOk
    else
      sendPhase s0 item sendOk

/-- The per-chunk generation re-check inside `writeBytes`: each chunk is
written under the serial lock after observing the current generation counter;
a cancelable item aborts at the first observation differing from its own
generation.  The input pairs each chunk with the generation observed at its
lock acquisition; the result is the list of chunks actually written. -/
def writeChunksObserved (cancelable : Bool) (itemGen : Nat) :
    List (List Nat × Nat) → List (List Nat)
  | [] => []
  | (chunk, g) :: rest =>
    if cancelable && itemGen != g then []
    else chunk :: writeChunksObserved cancelable itemGen rest

lemma cancel_count_eq (s : DriverState) (now : ℚ) :
    (cancel s now).2 =
      if (s.isSpeaking || !s.pendingIndexes.isEmpty) = true then 1 else 0 := rfl

lemma wasSpeaking_iff (s : DriverState) :
    (s.isSpeaking || !s.pendingIndexes.isEmpty) = true ↔
      (s.isSpeaking = true ∨ s.pendingIndexes ≠ []) := by
  rw [Bool.or_eq_true, Bool.not_eq_true', ← Bool.not_eq_true]
  rw [not_iff_not.mpr List.isEmpty_iff]

/-- C3 — after `cancel` the pending-index queue is empty and the speaking
flag is false; `cancel` fires exactly one "done speaking" notification when
speech was in flight (speaking flag set or pending indexes queued) and zero
otherwise. -/
theorem C3_cancel_clears_state_and_notifies_once :
    ∀ (s : DriverState) (now : ℚ),
      (cancel s now).1.pendingIndexes = [] ∧
      (cancel s now).1.isSpeaking = false ∧
      ((cancel s now).2 = 1 ↔ (s.isSpeaking = true ∨ s.pendingIndexes ≠ [])) ∧
      ((cancel s now).2 = 0 ↔ (s.isSpeaking = false ∧ s.pendingIndexes = [])) := by
  intro s now
  refine ⟨?_, ?_, ?_, ?_⟩
  · unfold cancel clearIndexes queueWriteItem
    dsimp only
    split_ifs <;> rfl
  · unfold cancel clearIndexes queueWriteItem
    dsimp only
    split_ifs <;> rfl
  · rw [cancel_count_eq]
    split_ifs with h
    · exact iff_of_true rfl ((wasSpeaking_iff s).mp h)
    · refine iff_of_false (by norm_num) fun hp => h ((wasSpeaking_iff s).mpr hp)
  · rw [cancel_count_eq]
    split_ifs with h
    · refine iff_of_false (by norm_num) fun hp => ?_
      rcases (wasSpeaking_iff s).mp h with hs | hs
      · rw [hp.1] at hs; cases hs
      · exact hs hp.2
    · refine iff_of_true rfl ?_
      rw [wasSpeaking_iff] at h
      push_neg at h
      exact ⟨Bool.not_eq_true s.isSpeaking ▸ h.1, h.2⟩

/-- C5 (amended) — the cancellation sweep keeps exactly the queue entries
that are non-cancelable and non-mute (settings-sync, formant-sync and other
non-cancelable command items, plus the `None` stop sentinel), in order;
cancelable items and previously queued mute items are discarded, and the only
other change is the freshly enqueued non-cancelable mute item placed ahead of
the preserved entries when a connection exists and speech was in flight,
queued or mid-write. -/
theorem C5_cancel_sweep_preserves_noncancelable_nonmute :
    ∀ (s : DriverState) (now : ℚ),
      (cancel s now).1.writeQueue =
        (if s.serialPresent &&
            ((s.isSpeaking || !s.pendingIndexes.isEmpty) || !s.writeQueue.isEmpty ||
              s.isWritingSpeech) && !s.stopped then
          [some ⟨MUTE ++ s.indexEnableCommand, [], s.cancelGeneration + 1, now,
            false, false, false, false, true⟩]
        else []) ++ s.writeQueue.filter keepOnCancel ∧
      ∀ it ∈ s.writeQueue, keepOnCancel it = true → it ∈ (cancel s now).1.writeQueue := by
  intro s now
  have hchar : (cancel s now).1.writeQueue =
      (if s.serialPresent &&
          ((s.isSpeaking || !s.pendingIndexes.isEmpty) || !s.writeQueue.isEmpty ||
            s.isWritingSpeech) && !s.stopped then
        [some ⟨MUTE ++ s.indexEnableCommand, [], s.cancelGeneration + 1, now,
          false, false, false, false, true⟩]
      else []) ++ s.writeQueue.filter keepOnCancel := by
    unfold cancel clearIndexes queueWriteItem
    dsimp only
    by_cases h1 : (s.serialPresent &&
        ((s.isSpeaking || !s.pendingIndexes.isEmpty) || !s.writeQueue.isEmpty ||
          s.isWritingSpeech)) = true <;>
      by_cases h2 : (!s.stopped) = true <;>
        simp [h1, h2]
  refine ⟨hchar, fun it hmem hkeep => ?_⟩
  rw [hchar]
  exact List.mem_append_right _ (List.mem_filter.mpr ⟨hmem, hkeep⟩)

/-- A mute item sitting in the write queue (as enqueued by a previous
`cancel`). -/
def staleMuteItem : WItem :=
  ⟨MUTE ++ [64, 73, 43, 32], [], 0, 0, false, false, false, false, true⟩

/-- A driver state whose write queue holds only `staleMuteItem`, with no
serial connection. -/
def muteQueuedState : DriverState :=
  ⟨[], false, 0, [some staleMuteItem], false, false, false, [64, 73, 43, 32]⟩

/-- Counterexample for C5 as stated: a queued mute item is non-cancelable yet
does not survive the cancellation sweep — `cancel` empties the queue. -/
theorem C5_counterexample_mute_item_discarded :
    staleMuteItem.cancelable = false ∧ staleMuteItem.isMute = true ∧
      some staleMuteItem ∈ muteQueuedState.writeQueue ∧
      (cancel muteQueuedState 0).1.writeQueue = [] := by decide

/-- Items actually written to the serial port by a write-loop pass: a
transmitted Normal payload, or a mute payload flushed while connected. -/
def transmittedOf : WriteOutcome → Option WItem
  | .transmitted item => some item
  | .muteProcessed item sent => if sent then some item else none
  | _ => none

/-- The events that touch the write scheduler: `speak`'s final enqueue (a
cancelable Normal item), `cancel`, and one pass of the write loop. -/
inductive DriverEvent where
  | enqueueSpeech (data : List Nat) (indexes : List Int) (now : ℚ)
  | cancelEvent (now : ℚ)
  | writeEvent (now : ℚ) (reconnectOk sendOk : Bool)
deriving DecidableEq

def applyEvent (s : DriverState) : DriverEvent → DriverState × Option WItem
  | .enqueueSpeech data indexes now =>
      (queueWriteItem s data indexes false true false false false now, none)
  | .cancelEvent now => ((cancel s now).1, none)
  | .writeEvent now r k =>
      ((writeStep s now r k).1, transmittedOf (writeStep s now r k).2)

/-- Run a list of events, collecting every item written to the port. -/
def runEvents : List DriverEvent → DriverState → DriverState × List WItem
  | [], s => (s, [])
  | e :: es, s =>
    let r := applyEvent s e
    let rest := runEvents es r.1
    (rest.1, r.2.toList ++ rest.2)

lemma queueWriteItem_gen (s : DriverState) (data : List Nat) (indexes : List Int)
    (a b c d e : Bool) (now : ℚ) :
    (queueWriteItem s data indexes a b c d e now).cancelGeneration = s.cancelGeneration := by
  unfold queueWriteItem
  split_ifs <;> rfl

lemma sendPhase_gen (s : DriverState) (item : WItem) (k : Bool) :
    (sendPhase s item k).1.cancelGeneration = s.cancelGeneration := by
  unfold sendPhase
  dsimp only
  split_ifs <;> rfl

lemma writeStep_gen (s : DriverState) (now : ℚ) (r k : Bool) :
    (writeStep s now r k).1.cancelGeneration = s.cancelGeneration := by
  unfold writeStep
  rcases s.writeQueue with _ | ⟨_ | item, rest⟩
  · rfl
  · rfl
  · dsimp only
    split_ifs <;> first | rfl | rw [sendPhase_gen]

lemma applyEvent_gen_mono (s : DriverState) (e : DriverEvent) :
    s.cancelGeneration ≤ (applyEvent s e).1.cancelGeneration := by
  rcases e with ⟨data, indexes, now⟩ | now | ⟨now, r, k⟩
  · rw [applyEvent, queueWriteItem_gen]
  · show s.cancelGeneration ≤ (cancel s now).1.cancelGeneration
    unfold cancel clearIndexes queueWriteItem
    dsimp only
    split_ifs <;> exact Nat.le_succ _
  · rw [applyEvent]
    rw [writeStep_gen]

lemma sendPhase_outcome (s : DriverState) (item : WItem) (k : Bool) :
    (sendPhase s item k).2 = .transmitted item ∨ (sendPhase s item k).2 = .sendFailed item := by
  unfold sendPhase
  dsimp only
  split_ifs <;> simp

lemma transmittedOf_sendPhase {s' : DriverState} {it : WItem} {k : Bool} {item : WItem}
    (h : transmittedOf (sendPhase s' it k).2 = some item) : item = it := by
  rcases sendPhase_outcome s' it k with ho | ho <;> rw [ho] at h <;>
    simp [transmittedOf] at h
  exact h.symm

lemma writeStep_transmit_gen {s : DriverState} {now : ℚ} {r k : Bool} {item : WItem}
    (h : transmittedOf (writeStep s now r k).2 = some item)
    (hc : item.cancelable = true) : item.generation = s.cancelGeneration := by
  unfold writeStep at h
  rcases hq : s.writeQueue with _ | ⟨oit, rest⟩ <;> rw [hq] at h
  · simp [transmittedOf] at h
  · rcases oit with _ | it
    · simp [transmittedOf] at h
    · dsimp only at h
      by_cases hstale : (it.cancelable && it.generation != s.cancelGeneration) = true
      · rw [if_pos hstale] at h
        simp [transmittedOf] at h
      · rw [if_neg hstale] at h
        have hitem : item = it := by
          split_ifs at h <;>
            first
              | exact transmittedOf_sendPhase h
              | (simp [transmittedOf] at h; exact h.2.symm)
              | simp [transmittedOf] at h
        subst hitem
        simp only [Bool.and_eq_true, bne_iff_ne, ne_eq, not_and, not_not] at hstale
        exact hstale hc

lemma stale_never_transmitted (evs : List DriverEvent) :
    ∀ (s : DriverState) (item : WItem), item.cancelable = true →
      item.generation < s.cancelGeneration → item ∉ (runEvents evs s).2 := by
  induction evs with
  | nil =>
    intro s item _ _
    simp [runEvents]
  | cons e es ih =>
    intro s item hc hlt
    unfold runEvents
    dsimp only
    intro hmem
    rcases List.mem_append.mp hmem with h1 | h2
    · rcases e with ⟨data, indexes, now⟩ | now | ⟨now, r, k⟩
      · simp [applyEvent] at h1
      · simp [applyEvent] at h1
      · rw [applyEvent] at h1
        rcases ho : transmittedOf (writeStep s now r k).2 with _ | it
        · rw [ho] at h1
          simp at h1
        · rw [ho] at h1
          simp only [Option.toList_some, List.mem_singleton] at h1
          subst h1
          rw [writeStep_transmit_gen ho hc] at hlt
          exact absurd hlt (lt_irrefl _)
    · exact ih (applyEvent s e).1 item hc
        (Nat.lt_of_lt_of_le hlt (applyEvent_gen_mono s e)) h2

lemma writeChunksObserved_allStale {itemGen : Nat} {obs : List (List Nat × Nat)}
    (h : ∀ p ∈ obs, p.2 ≠ itemGen) : writeChunksObserved true itemGen obs = [] := by
  rcases obs with _ | ⟨⟨chunk, g⟩, rest⟩
  · rfl
  · unfold writeChunksObserved
    rw [if_pos]
    simp only [Bool.true_and, bne_iff_ne, ne_eq]
    exact fun he => h ⟨chunk, g⟩ (List.mem_cons_self _ _) he.symm

/-- C4 — only `cancel` changes the generation counter (it increments it by
one; enqueueing and write-loop passes preserve it); a write-loop pass
transmits a cancelable item only when the item's generation equals the
current counter, and the per-chunk re-check writes nothing once every
observed counter value differs from the item's; consequently a cancelable
item stamped at or before the current generation is never transmitted after
a `cancel`, whatever events follow. -/
theorem C4_stale_generation_never_sent :
    (∀ (s : DriverState) (now : ℚ),
      (cancel s now).1.cancelGeneration = s.cancelGeneration + 1) ∧
    (∀ (s : DriverState) (data : List Nat) (indexes : List Int)
        (a b c d e : Bool) (now : ℚ),
      (queueWriteItem s data indexes a b c d e now).cancelGeneration = s.cancelGeneration) ∧
    (∀ (s : DriverState) (now : ℚ) (r k : Bool),
      (writeStep s now r k).1.cancelGeneration = s.cancelGeneration) ∧
    (∀ (s : DriverState) (now : ℚ) (r k : Bool) (item : WItem),
      transmittedOf (writeStep s now r k).2 = some item → item.cancelable = true →
        item.generation = s.cancelGeneration) ∧
    (∀ (itemGen : Nat) (obs : List (List Nat × Nat)),
      (∀ p ∈ obs, p.2 ≠ itemGen) → writeChunksObserved true itemGen obs = []) ∧
    (∀ (evs : List DriverEvent) (s : DriverState) (item : WItem) (now : ℚ),
      item.cancelable = true → item.generation ≤ s.cancelGeneration →
        item ∉ (runEvents evs ((cancel s now).1)).2) := by
  have hbump : ∀ (s : DriverState) (now : ℚ),
      (cancel s now).1.cancelGeneration = s.cancelGeneration + 1 := by
    intro s now
    unfold cancel clearIndexes queueWriteItem
    dsimp only
    split_ifs <;> rfl
  refine ⟨hbump, queueWriteItem_gen, writeStep_gen,
    fun _ _ _ _ _ h hc => writeStep_transmit_gen h hc,
    fun _ _ h => writeChunksObserved_allStale h, ?_⟩
  intro evs s item now hc hle
  refine stale_never_transmitted evs _ item hc ?_
  rw [hbump]
  omega

/-- A cancelable speech item stamped with generation 0. -/
def speechItem : WItem := ⟨[72, 105], [-1], 0, 0, false, true, false, false, false⟩

/-- A connected driver state whose queue holds only `speechItem`. -/
def speechQueuedState : DriverState :=
  ⟨[], false, 0, [some speechItem], false, true, false, [64, 73, 43, 32]⟩

/-- Witness for C4: after a cancel, a subsequent write-loop pass does not
transmit the speech item that was queued before the cancel. -/
theorem C4_stale_generation_never_sent_witness :
    speechItem ∉ (runEvents [DriverEvent.writeEvent 1 true true]
      ((cancel speechQueuedState 0).1)).2 :=
  C4_stale_generation_never_sent.2.2.2.2.2 [DriverEvent.writeEvent 1 true true]
    speechQueuedState speechItem 0 (by decide) (by decide)

/-- C7 — when no connection exists as a Normal item reaches the write loop:
a cancelable item older than the staleness window is dropped (queue simply
advances) with "done speaking" notified exactly when its index list ends with
the internal done sentinel; otherwise, if reconnection fails, the item is
requeued at the back of the queue.  The notification flag equals the
"last index is the sentinel" condition. -/
theorem C7_offline_drop_or_requeue :
    (∀ (s : DriverState) (item : WItem) (rest : List (Option WItem)) (now : ℚ)
        (r k : Bool),
      s.writeQueue = some item :: rest →
      s.serialPresent = false →
      (item.cancelable && item.generation != s.cancelGeneration) = false →
      item.isMute = false → item.isSettingsSync = false → item.isFormantSync = false →
      (item.cancelable = true → now - item.createdAt > OFFLINE_WRITE_MAX_AGE_SECONDS →
        (writeStep s now r k).2 = .droppedOffline item
            (!item.indexes.isEmpty && item.indexes.getLast? == some INTERNAL_DONE_INDEX) ∧
        (writeStep s now r k).1.writeQueue = rest) ∧
      (¬(item.cancelable = true ∧ now - item.createdAt > OFFLINE_WRITE_MAX_AGE_SECONDS) →
        r = false →
        (writeStep s now r k).2 = .requeued item ∧
        (writeStep s now r k).1.writeQueue = rest ++ [some item])) ∧
    (∀ l : List Int,
      (!l.isEmpty && l.getLast? == some INTERNAL_DONE_INDEX) = true ↔
        l.getLast? = some INTERNAL_DONE_INDEX) := by
  constructor
  · intro s item rest now r k hq hser hstale hmute hss hfs
    unfold writeStep
    rw [hq]
    dsimp only
    rw [if_neg (by rw [hstale]; exact Bool.false_ne_true), if_neg (by rw [hmute]; simp),
      if_neg (by rw [hss, hfs]; simp), if_pos (by rw [hser]; rfl)]
    constructor
    · intro hcan hage
      rw [if_pos (by rw [hcan, decide_eq_true hage]; rfl)]
      exact ⟨rfl, rfl⟩
    · intro hno hr
      rw [if_neg ?hcond]
      · rw [hr]
        simp
      case hcond =>
        intro hcond
        rcases Bool.and_eq_true _ _ |>.mp hcond with ⟨h1, h2⟩
        exact hno ⟨h1, of_decide_eq_true h2⟩
  · intro l
    cases l with
    | nil => simp
    | cons x xs => simp

/-- An old cancelable speech item whose index list ends with the sentinel. -/
def oldSpeechItem : WItem := ⟨[65], [3, -1], 0, 0, false, true, false, false, false⟩

/-- A disconnected driver state whose queue holds only `oldSpeechItem`. -/
def offlineState : DriverState :=
  ⟨[], false, 0, [some oldSpeechItem], false, false, false, [64, 73, 43, 32]⟩

/-- Witness for C7: at time 20 the item (created at 0) exceeds the 10-second
window, so it is dropped with a "done speaking" notification. -/
theorem C7_offline_drop_or_requeue_witness :
    (writeStep offlineState 20 false true).2 = .droppedOffline oldSpeechItem true ∧
      (writeStep offlineState 20 false true).1.writeQueue = [] := by
  have h := (C7_offline_drop_or_requeue.1 offlineState oldSpeechItem [] 20 false true
    rfl rfl (by decide) rfl rfl rfl).1 rfl
    (by norm_num [oldSpeechItem, OFFLINE_WRITE_MAX_AGE_SECONDS])
  have hb : (!oldSpeechItem.indexes.isEmpty &&
      oldSpeechItem.indexes.getLast? == some INTERNAL_DONE_INDEX) = true := by decide
  rw [hb] at h
  exact h

end Apollo
